import Mathlib

/-!
Verification development for the `bn_coin` repository: a small HTTP proxy
that fetches a coin/network dataset from one upstream provider and exposes
two endpoints, `POST /api/filter-coins` and `GET /api/networks`
(`src/index.ts`; an earlier variant of the same server lives in a second,
unnamed source file).

The data model and the two transformations (filter-and-simplify, network
index building) are embedded shallowly below.  JavaScript objects with
string keys are modelled as association lists `List (String × α)` with the
insertion-order semantics of string-keyed objects: assigning to an existing
key overwrites its value in place, assigning to a fresh key appends it.
JSON numbers occur only in fields the program never reads; they are
modelled as `Int`.  The upstream fetch is modelled as an `Except` value
passed to the handler, together with a counter of fetch invocations.
-/

/-- One entry of a coin's `networkList`, mirroring the `Network` interface
of `src/index.ts` field by field (`string | null` becomes `Option String`,
`number | null` becomes `Option Int`). -/
structure Network where
  network : String
  coin : String
  name : String
  depositDust : String
  depositEnable : Bool
  withdrawEnable : Bool
  depositHideEnable : Bool
  withdrawHideEnable : Bool
  depositDesc : String
  depositMsgCategoryDesc : Option String
  withdrawDesc : String
  withdrawMsgCategoryDesc : Option String
  specialTips : String
  specialWithdrawTips : String
  depositFee : String
  withdrawFee : String
  withdrawMin : String
  estimatedRecoveryTime : Option Int
  estimatedArrivalTime : Int
  country : String
  label : String
  busy : Bool
  contractAddress : String
deriving DecidableEq, Repr

/-- A tradable asset, mirroring the `Coin` interface of `src/index.ts`. -/
structure Coin where
  coin : String
  name : String
  depositAllEnable : Bool
  withdrawAllEnable : Bool
  depositHideAll : Bool
  withdrawHideAll : Bool
  logoUrl : String
  totalAmount : Option Int
  hotFlag : Int
  btcValuation : Option Int
  networkList : List Network
deriving DecidableEq, Repr

/-- The upstream response envelope, mirroring the `ApiResponse` interface. -/
structure ApiResponse where
  code : String
  message : Option String
  messageDetail : Option String
  data : List Coin
  success : Bool
deriving DecidableEq, Repr

/-- The per-network summary carried in the filter-coins response, mirroring
the `SimplifiedNetwork` interface. -/
structure SimplifiedNetwork where
  name : String
  withdrawEnable : Bool
  depositEnable : Bool
deriving DecidableEq, Repr

/-- One element of the filter-coins response `data` array, mirroring the
`SimplifiedCoin` interface; its `networks` object is modelled as an
association list. -/
structure SimplifiedCoin where
  coin : String
  name : String
  networks : List (String × SimplifiedNetwork)
deriving DecidableEq, Repr

/-- JavaScript object read `m[k]`: the value at the first (and, for objects
built by `objInsert`, only) entry with key `k`, or `none` when absent. -/
def objLookup {α : Type} (m : List (String × α)) (k : String) : Option α :=
  (m.find? (fun e => e.fst == k)).map Prod.snd

/-- JavaScript object write `m[k] = v`: overwrite in place when the key is
present, append when it is fresh. -/
def objInsert {α : Type} (m : List (String × α)) (k : String) (v : α) :
    List (String × α) :=
  if m.any (fun e => e.fst == k) then
    m.map (fun e => if e.fst == k then (k, v) else e)
  else
    m ++ [(k, v)]

/-- The filter predicate of the filter-coins handler:
`coin.networkList.some(network => !whitelistedNetworks.has(network.network))`.
The `Set` built from the request's `networks` array is modelled by
membership in that array. -/
def hasNonWhitelisted (whitelist : List String) (c : Coin) : Bool :=
  c.networkList.any (fun network => !(whitelist.contains network.network))

/-- The per-network projection stored into `networkMap` by the map step of
the filter-coins handler. -/
def simpNet (network : Network) : SimplifiedNetwork :=
  { name := network.name
    withdrawEnable := network.withdrawEnable
    depositEnable := network.depositEnable }

/-- The map step of the filter-coins handler: build `networkMap` by a
`forEach` over the coin's full `networkList`, then package coin symbol,
display name and the map. -/
def simplifyCoin (c : Coin) : SimplifiedCoin :=
  { coin := c.coin
    name := c.name
    networks :=
      c.networkList.foldl (fun m network => objInsert m network.network (simpNet network)) [] }

/-- The coins retained by the filter step of the filter-coins handler. -/
def keptCoins (data : List Coin) (whitelist : List String) : List Coin :=
  data.filter (hasNonWhitelisted whitelist)

/-- The whole `filteredCoins` computation of the filter-coins handler:
`data.filter(...).map(...)`. -/
def filterCoins (data : List Coin) (whitelist : List String) : List SimplifiedCoin :=
  (keptCoins data whitelist).map simplifyCoin

/-- The update performed on `networksMap` for one network inside the
networks handler:
`if (!networksMap[k] || networksMap[k].length < network.name.length) networksMap[k] = network.name`.
A missing key and the empty string are both falsy in JavaScript, so the
guard fires when the key is absent, the recorded name is empty, or the
recorded name is strictly shorter than the new one. -/
def nwUpdate (m : List (String × String)) (code name : String) :
    List (String × String) :=
  match objLookup m code with
  | none => objInsert m code name
  | some old =>
      if old == "" || old.length < name.length then objInsert m code name else m

/-- The unsorted `networksMap` built by the networks handler: a nested
`forEach` over all coins and their networks. -/
def buildNetworkIndexRaw (data : List Coin) : List (String × String) :=
  data.foldl
    (fun m c => c.networkList.foldl (fun m network => nwUpdate m network.network network.name) m)
    []

/-- The sort order used by the networks handler, lifted to entries:
`([a], [b]) => a.localeCompare(b)` compares keys only.  The locale
comparison itself is a parameter `loc`, read as `loc a b = true` meaning
`a` precedes-or-equals `b` in the locale order. -/
def locRel (loc : String → String → Bool) :
    (String × String) → (String × String) → Prop :=
  fun p q => loc p.fst q.fst = true

instance locRelDecidable (loc : String → String → Bool) : DecidableRel (locRel loc) :=
  fun p q => inferInstanceAs (Decidable (loc p.fst q.fst = true))

/-- The `sortedNetworks` object of the networks handler: the entries of the
unsorted map, sorted by key under the locale comparison and reassembled
into an object in that order. -/
def buildNetworkIndex (loc : String → String → Bool) (data : List Coin) :
    List (String × String) :=
  List.insertionSort (locRel loc) (buildNetworkIndexRaw data)

/-- A concrete locale comparison used to instantiate theorems: the standard
lexicographic order on strings. -/
def locLe : String → String → Bool :=
  fun a b => decide (a ≤ b)

/-! ### HTTP handler models

Each handler is modelled as a pure function of the request data and of the
outcome of the (single, unconditional once reached) upstream fetch, which is
passed in as `Except String ApiResponse` — `Except.error detail` models
`fetchBinanceData()` throwing with server-side detail `detail`.  The result
records the HTTP status, the JSON body, and how many upstream fetches the
handler performed. -/

/-- A response body of either endpoint.  Success constructors stand for
bodies carrying `success: true` plus the listed fields; `failure msg`
stands for the body with exactly `success: false` and `message: msg` and
no `data` field. -/
inductive RespBody where
  | filterOk (total : Nat) (totalCoins : Nat) (data : List SimplifiedCoin)
  | filterOkV0 (total : Nat) (data : List SimplifiedCoin)
  | networksOk (total : Nat) (data : List (String × String))
  | failure (message : String)
deriving DecidableEq, Repr

/-- Status, body and number of upstream fetch calls of one handled request. -/
structure HandlerResult where
  status : Nat
  body : RespBody
  fetchCalls : Nat
deriving DecidableEq, Repr

/-- The `POST /api/filter-coins` handler of `src/index.ts`.  The request's
`networks` field is `some ws` when it is an array (of network-code strings)
and `none` otherwise, mirroring the `Array.isArray` guard which runs before
any upstream call. -/
def filterCoinsHandler (networksField : Option (List String))
    (upstream : Except String ApiResponse) : HandlerResult :=
  match networksField with
  | none => ⟨400, RespBody.failure "Networks must be an array", 0⟩
  | some networks =>
    match upstream with
    | Except.error _ => ⟨500, RespBody.failure "Internal server error", 1⟩
    | Except.ok resp =>
        let filteredCoins := filterCoins resp.data networks
        ⟨200, RespBody.filterOk filteredCoins.length resp.data.length filteredCoins, 1⟩

/-- The `GET /api/networks` handler of `src/index.ts`.  Its `total` field
counts the keys of the unsorted map; its `data` field is the sorted map. -/
def networksHandler (loc : String → String → Bool)
    (upstream : Except String ApiResponse) : HandlerResult :=
  match upstream with
  | Except.error _ => ⟨500, RespBody.failure "Internal server error", 1⟩
  | Except.ok resp =>
      ⟨200,
       RespBody.networksOk (buildNetworkIndexRaw resp.data).length
         (buildNetworkIndex loc resp.data),
       1⟩

/-! ### The earlier variant (unnamed source file)

The second source file contains the same server with the same filter-coins
transformation; its success response omits `totalCoins` and it has no
`/api/networks` endpoint.  Its transformation is embedded separately so the
two can be compared. -/

/-- The filter predicate of the variant's filter-coins handler (textually
the same code as in `src/index.ts`). -/
def hasNonWhitelistedV0 (whitelist : List String) (c : Coin) : Bool :=
  c.networkList.any (fun network => !(whitelist.contains network.network))

/-- The map step of the variant's filter-coins handler. -/
def simplifyCoinV0 (c : Coin) : SimplifiedCoin :=
  { coin := c.coin
    name := c.name
    networks :=
      c.networkList.foldl
        (fun m network =>
          objInsert m network.network
            { name := network.name
              withdrawEnable := network.withdrawEnable
              depositEnable := network.depositEnable })
        [] }

/-- The `filteredCoins` computation of the variant's filter-coins handler. -/
def filterCoinsV0 (data : List Coin) (whitelist : List String) : List SimplifiedCoin :=
  (data.filter (hasNonWhitelistedV0 whitelist)).map simplifyCoinV0

/-- The variant's `POST /api/filter-coins` handler: identical control flow,
success body without `totalCoins`. -/
def filterCoinsHandlerV0 (networksField : Option (List String))
    (upstream : Except String ApiResponse) : HandlerResult :=
  match networksField with
  | none => ⟨400, RespBody.failure "Networks must be an array", 0⟩
  | some networks =>
    match upstream with
    | Except.error _ => ⟨500, RespBody.failure "Internal server error", 1⟩
    | Except.ok resp =>
        let filteredCoins := filterCoinsV0 resp.data networks
        ⟨200, RespBody.filterOkV0 filteredCoins.length filteredCoins, 1⟩

/-- Erase the `totalCoins` field from a filter-coins success body, leaving
every other body unchanged: the shape in which the two variants' responses
are compared. -/
def dropTotalCoins : RespBody → RespBody
  | RespBody.filterOk total _ data => RespBody.filterOkV0 total data
  | b => b

/-! ### Operational model of the transformation loops

To speak about determinism and about the whitelist not being mutated, the
filter-and-simplify pass is also given as a big-step evaluation relation
that threads the whitelist through and may in principle relate one input to
many outputs; the index-building loop likewise.  The theorems show both
relations are functional and leave the whitelist untouched. -/

/-- Big-step evaluation of the filter-and-simplify pass: `FilterRun W D W' out`
reads "processing the coins `D` with incoming whitelist `W` ends with
whitelist `W'` and emits `out`". -/
inductive FilterRun :
    List String → List Coin → List String → List SimplifiedCoin → Prop where
  | nil (W : List String) : FilterRun W [] W []
  | keep (W : List String) (c : Coin) (D : List Coin) (W' : List String)
      (out : List SimplifiedCoin) :
      hasNonWhitelisted W c = true → FilterRun W D W' out →
      FilterRun W (c :: D) W' (simplifyCoin c :: out)
  | drop (W : List String) (c : Coin) (D : List Coin) (W' : List String)
      (out : List SimplifiedCoin) :
      hasNonWhitelisted W c = false → FilterRun W D W' out →
      FilterRun W (c :: D) W' out

/-- Big-step evaluation of the networks-handler accumulation loop:
`IndexRun m D m'` reads "starting from map `m`, processing the coins `D`
ends with map `m'`". -/
inductive IndexRun :
    List (String × String) → List Coin → List (String × String) → Prop where
  | nil (m : List (String × String)) : IndexRun m [] m
  | cons (m : List (String × String)) (c : Coin) (D : List Coin)
      (m' : List (String × String)) :
      IndexRun
        (c.networkList.foldl (fun a network => nwUpdate a network.network network.name) m)
        D m' →
      IndexRun m (c :: D) m'

/-! ### Sample data for witnesses -/

/-- A concrete network (codes and names from the spec's scenario data;
remaining fields arbitrary but fixed). -/
def bscNetwork : Network :=
  { network := "BSC"
    coin := "BTC"
    name := "BNB Smart Chain (BEP20)"
    depositDust := "0.0000001"
    depositEnable := true
    withdrawEnable := true
    depositHideEnable := false
    withdrawHideEnable := false
    depositDesc := ""
    depositMsgCategoryDesc := none
    withdrawDesc := ""
    withdrawMsgCategoryDesc := none
    specialTips := ""
    specialWithdrawTips := ""
    depositFee := "0"
    withdrawFee := "0.0000049"
    withdrawMin := "0.0000086"
    estimatedRecoveryTime := none
    estimatedArrivalTime := 2
    country := ""
    label := ""
    busy := false
    contractAddress := "" }

/-- A second concrete network on the same coin. -/
def ethNetwork : Network :=
  { bscNetwork with network := "ETH", name := "Ethereum (ERC20)" }

/-- A concrete coin carrying the two sample networks. -/
def btcCoin : Coin :=
  { coin := "BTC"
    name := "Bitcoin"
    depositAllEnable := true
    withdrawAllEnable := true
    depositHideAll := false
    withdrawHideAll := false
    logoUrl := ""
    totalAmount := none
    hotFlag := 0
    btcValuation := none
    networkList := [bscNetwork, ethNetwork] }

/-- A one-coin sample dataset. -/
def sampleDataset : List Coin := [btcCoin]

/-- All networks of a dataset, in traversal order of the networks handler's
nested loops (used only to state and prove lemmas about that loop). -/
def allNetworks (D : List Coin) : List Network :=
  D.foldr (fun c acc => c.networkList ++ acc) []

/-! ### Lemmas about the JavaScript object model -/

theorem objLookup_cons {α : Type} (e : String × α) (m : List (String × α)) (k : String) :
    objLookup (e :: m) k = if e.fst == k then some e.snd else objLookup m k := by
  cases he : e.fst == k with
  | true => simp [objLookup, he]
  | false => simp [objLookup, he]

theorem map_fst_replace {α : Type} (m : List (String × α)) (k : String) (v : α) :
    (m.map (fun e => if e.fst == k then (k, v) else e)).map Prod.fst = m.map Prod.fst := by
  rw [List.map_map]
  apply List.map_congr_left
  intro e _
  cases he : e.fst == k with
  | true =>
      simp only [Function.comp_apply, if_pos he]
      exact (eq_of_beq he).symm
  | false =>
      simp only [Function.comp_apply]
      rw [if_neg (by simp [he])]

theorem objLookup_objInsert_self {α : Type} (m : List (String × α)) (k : String) (v : α) :
    objLookup (objInsert m k v) k = some v := by
  cases hany : m.any (fun e => e.fst == k) with
  | true =>
      unfold objInsert objLookup
      rw [if_pos hany, List.find?_map]
      have hfun : ((fun e : String × α => e.fst == k) ∘
          (fun e => if e.fst == k then (k, v) else e)) = fun e : String × α => e.fst == k := by
        funext e
        cases he : e.fst == k with
        | true =>
            have hek : e.fst = k := eq_of_beq he
            simp [Function.comp_apply, hek]
        | false =>
            have hek : e.fst ≠ k := beq_eq_false_iff_ne.mp he
            simp [Function.comp_apply, hek]
      rw [hfun]
      obtain ⟨e, hmem, he⟩ := List.any_eq_true.mp hany
      obtain ⟨x, hx⟩ :=
        Option.isSome_iff_exists.mp
          ((@List.find?_isSome (String × α) m (fun e => e.fst == k)).mpr ⟨e, hmem, he⟩)
      have hpx := List.find?_some hx
      have hxk : x.fst = k := eq_of_beq hpx
      rw [hx]
      simp [hxk]
  | false =>
      unfold objInsert objLookup
      rw [if_neg (by simp [hany]), List.find?_append]
      have hnone : List.find? (fun e : String × α => e.fst == k) m = none :=
        List.find?_eq_none.mpr (by
          intro x hx
          have := List.any_eq_false.mp hany x hx
          simp [this])
      simp [hnone]

theorem objLookup_objInsert_ne {α : Type} (m : List (String × α)) (k k' : String) (v : α)
    (h : k' ≠ k) : objLookup (objInsert m k v) k' = objLookup m k' := by
  cases hany : m.any (fun e => e.fst == k) with
  | true =>
      unfold objInsert objLookup
      rw [if_pos hany, List.find?_map]
      have hfun : ((fun e : String × α => e.fst == k') ∘
          (fun e => if e.fst == k then (k, v) else e)) = fun e : String × α => e.fst == k' := by
        funext e
        cases he : e.fst == k with
        | true =>
            have hek : e.fst = k := eq_of_beq he
            simp [Function.comp_apply, hek]
        | false =>
            have hek : e.fst ≠ k := beq_eq_false_iff_ne.mp he
            simp [Function.comp_apply, hek]
      rw [hfun]
      cases hf : m.find? (fun e : String × α => e.fst == k') with
      | none => simp
      | some e =>
          have hpe := List.find?_some hf
          have hne : e.fst ≠ k := by
            intro hek
            exact h ((eq_of_beq hpe).symm.trans hek)
          simp [hne]
  | false =>
      unfold objInsert objLookup
      rw [if_neg (by simp [hany]), List.find?_append]
      have hsing : List.find? (fun e : String × α => e.fst == k') [(k, v)] = none := by
        simp [beq_eq_false_iff_ne.mpr (fun hkk => h hkk.symm)]
      simp [hsing]

theorem mem_keys_objInsert {α : Type} (m : List (String × α)) (k k' : String) (v : α) :
    k' ∈ (objInsert m k v).map Prod.fst ↔ k' = k ∨ k' ∈ m.map Prod.fst := by
  cases hany : m.any (fun e => e.fst == k) with
  | true =>
      unfold objInsert
      rw [if_pos hany, map_fst_replace]
      constructor
      · exact Or.inr
      · rintro (rfl | hmem)
        · obtain ⟨e, hmem, he⟩ := List.any_eq_true.mp hany
          exact List.mem_map.mpr ⟨e, hmem, eq_of_beq he⟩
        · exact hmem
  | false =>
      unfold objInsert
      rw [if_neg (by simp [hany]), List.map_append]
      simp [or_comm]

theorem nodup_keys_objInsert {α : Type} (m : List (String × α)) (k : String) (v : α)
    (h : (m.map Prod.fst).Nodup) : ((objInsert m k v).map Prod.fst).Nodup := by
  cases hany : m.any (fun e => e.fst == k) with
  | true =>
      unfold objInsert
      rw [if_pos hany, map_fst_replace]
      exact h
  | false =>
      unfold objInsert
      rw [if_neg (by simp [hany]), List.map_append]
      have hk : k ∉ m.map Prod.fst := by
        intro hmem
        obtain ⟨e, hem, hfst⟩ := List.mem_map.mp hmem
        have := List.any_eq_false.mp hany e hem
        simp [hfst] at this
      simp [List.nodup_append, h, hk]

theorem objLookup_isSome_iff {α : Type} (m : List (String × α)) (k : String) :
    (objLookup m k).isSome = true ↔ k ∈ m.map Prod.fst := by
  unfold objLookup
  rw [Option.isSome_map', List.find?_isSome]
  constructor
  · rintro ⟨e, hmem, he⟩
    exact List.mem_map.mpr ⟨e, hmem, eq_of_beq he⟩
  · intro hmem
    obtain ⟨e, hem, hfst⟩ := List.mem_map.mp hmem
    exact ⟨e, hem, by simp [hfst]⟩

theorem objLookup_eq_none_iff {α : Type} (m : List (String × α)) (k : String) :
    objLookup m k = none ↔ k ∉ m.map Prod.fst := by
  rw [← Option.not_isSome_iff_eq_none]
  exact not_congr (objLookup_isSome_iff m k)

theorem objLookup_eq_some_iff_mem {α : Type} (m : List (String × α))
    (h : (m.map Prod.fst).Nodup) (k : String) (v : α) :
    objLookup m k = some v ↔ (k, v) ∈ m := by
  induction m with
  | nil => simp [objLookup]
  | cons e m ih =>
      obtain ⟨a, b⟩ := e
      simp only [List.map_cons, List.nodup_cons] at h
      rw [objLookup_cons]
      by_cases hak : a = k
      · subst hak
        rw [if_pos (by simp)]
        constructor
        · intro hv
          have hb : b = v := Option.some.inj hv
          subst hb
          exact List.mem_cons_self _ _
        · intro hm
          rcases List.mem_cons.mp hm with heq | hmem
          · rw [Prod.mk.injEq] at heq
            rw [heq.2]
          · exact absurd (List.mem_map.mpr ⟨(a, v), hmem, rfl⟩) h.1
      · rw [if_neg (by simp [hak])]
        rw [ih h.2]
        constructor
        · exact fun hm => List.mem_cons_of_mem _ hm
        · intro hm
          rcases List.mem_cons.mp hm with heq | hmem
          · rw [Prod.mk.injEq] at heq
            exact absurd heq.1.symm hak
          · exact hmem

theorem perm_objLookup {α : Type} (m₁ m₂ : List (String × α)) (hp : m₁.Perm m₂)
    (h₁ : (m₁.map Prod.fst).Nodup) (k : String) :
    objLookup m₁ k = objLookup m₂ k := by
  have hkeys : (m₁.map Prod.fst).Perm (m₂.map Prod.fst) := hp.map Prod.fst
  have h₂ : (m₂.map Prod.fst).Nodup := hkeys.nodup_iff.mp h₁
  cases hl : objLookup m₁ k with
  | none =>
      have hk : k ∉ m₁.map Prod.fst := (objLookup_eq_none_iff m₁ k).mp hl
      exact ((objLookup_eq_none_iff m₂ k).mpr fun hm => hk (hkeys.mem_iff.mpr hm)).symm
  | some v =>
      have hm := (objLookup_eq_some_iff_mem m₁ h₁ k v).mp hl
      exact ((objLookup_eq_some_iff_mem m₂ h₂ k v).mpr (hp.mem_iff.mp hm)).symm


/-! ### Lemmas about the networks-handler update and its loops -/

theorem nwUpdate_objLookup_self (m : List (String × String)) (k v : String) :
    objLookup (nwUpdate m k v) k =
      some (match objLookup m k with
            | none => v
            | some old => if old.length < v.length then v else old) := by
  unfold nwUpdate
  cases hm : objLookup m k with
  | none => simp [objLookup_objInsert_self]
  | some old =>
      dsimp only
      by_cases hcond : (old == "" || decide (old.length < v.length)) = true
      · rw [if_pos hcond, objLookup_objInsert_self]
        by_cases hlt : old.length < v.length
        · rw [if_pos hlt]
        · rw [if_neg hlt]
          have hold : old = "" := by
            have hor : old = "" ∨ old.length < v.length := by simpa using hcond
            rcases hor with h1 | h2
            · exact h1
            · exact absurd h2 hlt
          subst hold
          have hv0 : v.length = 0 := Nat.eq_zero_of_not_pos (by simpa using hlt)
          have hv : v = "" := by
            cases v with
            | mk data =>
                cases data with
                | nil => rfl
                | cons c cs => simp [String.length] at hv0
          rw [hv]
      · rw [if_neg hcond, hm]
        have hnlt : ¬ old.length < v.length := by
          intro hlt
          exact hcond (by simp [hlt])
        rw [if_neg hnlt]

theorem nwUpdate_objLookup_ne (m : List (String × String)) (k v k' : String)
    (h : k' ≠ k) : objLookup (nwUpdate m k v) k' = objLookup m k' := by
  unfold nwUpdate
  cases hm : objLookup m k with
  | none => exact objLookup_objInsert_ne m k k' v h
  | some old =>
      dsimp only
      by_cases hcond : (old == "" || decide (old.length < v.length)) = true
      · rw [if_pos hcond]
        exact objLookup_objInsert_ne m k k' v h
      · rw [if_neg hcond]

theorem mem_keys_nwUpdate (m : List (String × String)) (k v k' : String) :
    k' ∈ (nwUpdate m k v).map Prod.fst ↔ k' = k ∨ k' ∈ m.map Prod.fst := by
  unfold nwUpdate
  cases hm : objLookup m k with
  | none => exact mem_keys_objInsert m k k' v
  | some old =>
      dsimp only
      by_cases hcond : (old == "" || decide (old.length < v.length)) = true
      · rw [if_pos hcond]
        exact mem_keys_objInsert m k k' v
      · rw [if_neg hcond]
        constructor
        · exact Or.inr
        · rintro (rfl | hmem)
          · exact (objLookup_isSome_iff m k').mp (by simp [hm])
          · exact hmem

theorem nodup_keys_nwUpdate (m : List (String × String)) (k v : String)
    (h : (m.map Prod.fst).Nodup) : ((nwUpdate m k v).map Prod.fst).Nodup := by
  unfold nwUpdate
  cases objLookup m k with
  | none => exact nodup_keys_objInsert m k v h
  | some old =>
      dsimp only
      by_cases hcond : (old == "" || decide (old.length < v.length)) = true
      · rw [if_pos hcond]
        exact nodup_keys_objInsert m k v h
      · rw [if_neg hcond]
        exact h

theorem allNetworks_nil : allNetworks [] = [] := rfl

theorem allNetworks_cons (c : Coin) (D : List Coin) :
    allNetworks (c :: D) = c.networkList ++ allNetworks D := rfl

theorem mem_allNetworks (D : List Coin) (n : Network) :
    n ∈ allNetworks D ↔ ∃ c ∈ D, n ∈ c.networkList := by
  induction D with
  | nil => simp [allNetworks_nil]
  | cons c D ih => simp [allNetworks_cons, ih, List.mem_append]

theorem buildNetworkIndexRaw_eq_foldl (D : List Coin) :
    buildNetworkIndexRaw D =
      (allNetworks D).foldl (fun a network => nwUpdate a network.network network.name) [] := by
  have key : ∀ (D : List Coin) (m : List (String × String)),
      D.foldl
        (fun m c => c.networkList.foldl (fun a network => nwUpdate a network.network network.name) m)
        m =
      (allNetworks D).foldl (fun a network => nwUpdate a network.network network.name) m := by
    intro D
    induction D with
    | nil => intro m; rfl
    | cons c D ih =>
        intro m
        rw [List.foldl_cons, ih, allNetworks_cons, List.foldl_append]
  exact key D []

theorem idxFold_lookup_none_iff (L : List Network) (m : List (String × String)) (code : String) :
    objLookup (L.foldl (fun a network => nwUpdate a network.network network.name) m) code = none ↔
      objLookup m code = none ∧ ∀ n ∈ L, n.network ≠ code := by
  induction L generalizing m with
  | nil => simp
  | cons n L ih =>
      rw [List.foldl_cons, ih]
      by_cases hcode : n.network = code
      · subst hcode
        constructor
        · rintro ⟨h1, -⟩
          rw [nwUpdate_objLookup_self] at h1
          exact absurd h1 (by simp)
        · rintro ⟨-, hall⟩
          exact absurd rfl (hall n (List.mem_cons_self n L))
      · rw [nwUpdate_objLookup_ne m n.network n.name code (fun hc => hcode hc.symm)]
        constructor
        · rintro ⟨h1, h2⟩
          refine ⟨h1, ?_⟩
          intro x hx
          rcases List.mem_cons.mp hx with rfl | hx
          · exact hcode
          · exact h2 x hx
        · rintro ⟨h1, h2⟩
          exact ⟨h1, fun x hx => h2 x (List.mem_cons_of_mem _ hx)⟩

theorem idxFold_lookup_some (L : List Network) (m : List (String × String))
    (code name : String)
    (h : objLookup (L.foldl (fun a network => nwUpdate a network.network network.name) m) code =
      some name) :
    (objLookup m code = some name ∨ ∃ n ∈ L, n.network = code ∧ n.name = name)
    ∧ (∀ n ∈ L, n.network = code → n.name.length ≤ name.length)
    ∧ (∀ old, objLookup m code = some old → old.length ≤ name.length) := by
  induction L generalizing m with
  | nil =>
      have h' : objLookup m code = some name := h
      refine ⟨Or.inl h', by simp, ?_⟩
      intro old hold
      rw [h'] at hold
      exact Nat.le_of_eq (congrArg String.length (Option.some.inj hold).symm)
  | cons n L ih =>
      rw [List.foldl_cons] at h
      by_cases hcode : n.network = code
      · subst hcode
        obtain ⟨hsrc, hmax, hacc⟩ := ih (nwUpdate m n.network n.name) h
        cases hm : objLookup m n.network with
        | none =>
            have hself : objLookup (nwUpdate m n.network n.name) n.network = some n.name := by
              rw [nwUpdate_objLookup_self, hm]
            have hres : n.name.length ≤ name.length := hacc n.name hself
            refine ⟨?_, ?_, ?_⟩
            · rcases hsrc with heq | hex
              · have hval : n.name = name := Option.some.inj (hself.symm.trans heq)
                exact Or.inr ⟨n, List.mem_cons_self n L, rfl, hval⟩
              · obtain ⟨x, hxm, hxc, hxn⟩ := hex
                exact Or.inr ⟨x, List.mem_cons_of_mem _ hxm, hxc, hxn⟩
            · intro x hx hxc
              rcases List.mem_cons.mp hx with rfl | hx
              · exact hres
              · exact hmax x hx hxc
            · intro old hold
              exact absurd hold (by simp)
        | some old =>
            have hself : objLookup (nwUpdate m n.network n.name) n.network =
                some (if old.length < n.name.length then n.name else old) := by
              rw [nwUpdate_objLookup_self, hm]
            have hle1 : n.name.length ≤ (if old.length < n.name.length then n.name else old).length := by
              by_cases hlt : old.length < n.name.length
              · rw [if_pos hlt]
              · rw [if_neg hlt]
                exact Nat.le_of_not_lt hlt
            have hle2 : old.length ≤ (if old.length < n.name.length then n.name else old).length := by
              by_cases hlt : old.length < n.name.length
              · rw [if_pos hlt]
                exact Nat.le_of_lt hlt
              · rw [if_neg hlt]
            have hres : (if old.length < n.name.length then n.name else old).length ≤ name.length :=
              hacc _ hself
            refine ⟨?_, ?_, ?_⟩
            · rcases hsrc with heq | hex
              · have hval : (if old.length < n.name.length then n.name else old) = name :=
                  Option.some.inj (hself.symm.trans heq)
                by_cases hlt : old.length < n.name.length
                · rw [if_pos hlt] at hval
                  exact Or.inr ⟨n, List.mem_cons_self n L, rfl, hval⟩
                · rw [if_neg hlt] at hval
                  exact Or.inl (congrArg some hval)
              · obtain ⟨x, hxm, hxc, hxn⟩ := hex
                exact Or.inr ⟨x, List.mem_cons_of_mem _ hxm, hxc, hxn⟩
            · intro x hx hxc
              rcases List.mem_cons.mp hx with rfl | hx
              · exact Nat.le_trans hle1 hres
              · exact hmax x hx hxc
            · intro o ho
              rw [← Option.some.inj ho]
              exact Nat.le_trans hle2 hres
      · obtain ⟨hsrc, hmax, hacc⟩ := ih (nwUpdate m n.network n.name) h
        have hne : objLookup (nwUpdate m n.network n.name) code = objLookup m code :=
          nwUpdate_objLookup_ne m n.network n.name code (fun hc => hcode hc.symm)
        refine ⟨?_, ?_, ?_⟩
        · rcases hsrc with heq | hex
          · exact Or.inl (hne ▸ heq)
          · obtain ⟨x, hxm, hxc, hxn⟩ := hex
            exact Or.inr ⟨x, List.mem_cons_of_mem _ hxm, hxc, hxn⟩
        · intro x hx hxc
          rcases List.mem_cons.mp hx with rfl | hx
          · exact absurd hxc hcode
          · exact hmax x hx hxc
        · intro old hold
          exact hacc old (hne.symm ▸ hold)

theorem idxFold_nodup_keys (L : List Network) (m : List (String × String))
    (h : (m.map Prod.fst).Nodup) :
    ((L.foldl (fun a network => nwUpdate a network.network network.name) m).map Prod.fst).Nodup := by
  induction L generalizing m with
  | nil => exact h
  | cons n L ih =>
      rw [List.foldl_cons]
      exact ih _ (nodup_keys_nwUpdate m n.network n.name h)

theorem nodup_keys_buildNetworkIndexRaw (D : List Coin) :
    ((buildNetworkIndexRaw D).map Prod.fst).Nodup := by
  rw [buildNetworkIndexRaw_eq_foldl]
  exact idxFold_nodup_keys _ _ (by simp)

theorem buildNetworkIndexRaw_isSome_iff (D : List Coin) (code : String) :
    (objLookup (buildNetworkIndexRaw D) code).isSome = true ↔
      ∃ c ∈ D, ∃ n ∈ c.networkList, n.network = code := by
  rw [buildNetworkIndexRaw_eq_foldl]
  constructor
  · intro hs
    by_contra hex
    push_neg at hex
    have hnone : objLookup
        ((allNetworks D).foldl (fun a network => nwUpdate a network.network network.name) [])
        code = none := by
      refine (idxFold_lookup_none_iff _ _ _).mpr ⟨rfl, ?_⟩
      intro n hn
      obtain ⟨c, hc, hnc⟩ := (mem_allNetworks D n).mp hn
      exact hex c hc n hnc
    rw [hnone] at hs
    exact absurd hs (by simp)
  · rintro ⟨c, hc, n, hn, hcode⟩
    rw [Option.isSome_iff_ne_none]
    intro hnone
    obtain ⟨-, hall⟩ := (idxFold_lookup_none_iff _ _ _).mp hnone
    exact hall n ((mem_allNetworks D n).mpr ⟨c, hc, hn⟩) hcode

theorem buildNetworkIndexRaw_lookup_some (D : List Coin) (code name : String)
    (h : objLookup (buildNetworkIndexRaw D) code = some name) :
    (∃ c ∈ D, ∃ n ∈ c.networkList, n.network = code ∧ n.name = name)
    ∧ ∀ c ∈ D, ∀ n ∈ c.networkList, n.network = code → n.name.length ≤ name.length := by
  rw [buildNetworkIndexRaw_eq_foldl] at h
  obtain ⟨hsrc, hmax, -⟩ := idxFold_lookup_some _ _ _ _ h
  constructor
  · rcases hsrc with heq | hex
    · exact absurd heq (by simp [objLookup])
    · obtain ⟨n, hn, hcode, hname⟩ := hex
      obtain ⟨c, hc, hnc⟩ := (mem_allNetworks D n).mp hn
      exact ⟨c, hc, n, hnc, hcode, hname⟩
  · intro c hc n hn hcode
    exact hmax n ((mem_allNetworks D n).mpr ⟨c, hc, hn⟩) hcode

theorem nodup_keys_buildNetworkIndex (loc : String → String → Bool) (D : List Coin) :
    ((buildNetworkIndex loc D).map Prod.fst).Nodup := by
  have hperm : (buildNetworkIndex loc D).Perm (buildNetworkIndexRaw D) :=
    List.perm_insertionSort _ _
  exact ((hperm.map Prod.fst).nodup_iff).mpr (nodup_keys_buildNetworkIndexRaw D)

theorem buildNetworkIndex_lookup_eq_raw (loc : String → String → Bool) (D : List Coin)
    (code : String) :
    objLookup (buildNetworkIndex loc D) code = objLookup (buildNetworkIndexRaw D) code :=
  perm_objLookup _ _ (List.perm_insertionSort _ _) (nodup_keys_buildNetworkIndex loc D) code

/-! ### Lemmas about the filter-coins network map -/

theorem simpFold_lookup (L : List Network) (m : List (String × SimplifiedNetwork))
    (code : String) :
    objLookup (L.foldl (fun m network => objInsert m network.network (simpNet network)) m) code =
      match L.reverse.find? (fun n => n.network == code) with
      | some n => some (simpNet n)
      | none => objLookup m code := by
  induction L generalizing m with
  | nil => rfl
  | cons n L ih =>
      rw [List.foldl_cons, ih, List.reverse_cons, List.find?_append]
      cases hf : L.reverse.find? (fun x => x.network == code) with
      | some x => simp
      | none =>
          cases hn : (n.network == code) with
          | true =>
              have hcode : n.network = code := eq_of_beq hn
              subst hcode
              simp [objLookup_objInsert_self]
          | false =>
              have hcode : n.network ≠ code := beq_eq_false_iff_ne.mp hn
              simp [hn,
                objLookup_objInsert_ne m n.network code (simpNet n) (fun hc => hcode hc.symm)]

theorem simpFold_mem_keys (L : List Network) (m : List (String × SimplifiedNetwork))
    (code : String) :
    code ∈ (L.foldl (fun m network => objInsert m network.network (simpNet network)) m).map
        Prod.fst ↔
      (∃ n ∈ L, n.network = code) ∨ code ∈ m.map Prod.fst := by
  induction L generalizing m with
  | nil => simp
  | cons n L ih =>
      rw [List.foldl_cons, ih, mem_keys_objInsert]
      constructor
      · rintro (⟨x, hx, hc⟩ | (rfl | hm))
        · exact Or.inl ⟨x, List.mem_cons_of_mem _ hx, hc⟩
        · exact Or.inl ⟨n, List.mem_cons_self n L, rfl⟩
        · exact Or.inr hm
      · rintro (⟨x, hx, hc⟩ | hm)
        · rcases List.mem_cons.mp hx with rfl | hx
          · exact Or.inr (Or.inl hc.symm)
          · exact Or.inl ⟨x, hx, hc⟩
        · exact Or.inr (Or.inr hm)

theorem simpFold_nodup_keys (L : List Network) (m : List (String × SimplifiedNetwork))
    (h : (m.map Prod.fst).Nodup) :
    ((L.foldl (fun m network => objInsert m network.network (simpNet network)) m).map
      Prod.fst).Nodup := by
  induction L generalizing m with
  | nil => exact h
  | cons n L ih =>
      rw [List.foldl_cons]
      exact ih _ (nodup_keys_objInsert m n.network (simpNet n) h)

theorem hasNonWhitelisted_iff (W : List String) (c : Coin) :
    hasNonWhitelisted W c = true ↔ ∃ n ∈ c.networkList, n.network ∉ W := by
  unfold hasNonWhitelisted
  rw [List.any_eq_true]
  constructor
  · rintro ⟨n, hn, hb⟩
    refine ⟨n, hn, ?_⟩
    intro hmem
    rw [Bool.not_eq_true', ← Bool.not_eq_true] at hb
    exact hb (List.elem_eq_true_of_mem hmem)
  · rintro ⟨n, hn, hmem⟩
    refine ⟨n, hn, ?_⟩
    rw [Bool.not_eq_true', ← Bool.not_eq_true]
    intro hcon
    exact hmem (List.elem_iff.mp hcon)

/-! ### Helper facts about the concrete locale order -/

theorem locLe_total : ∀ a b : String, locLe a b = true ∨ locLe b a = true := by
  intro a b
  unfold locLe
  rcases le_total a b with h | h
  · exact Or.inl (decide_eq_true h)
  · exact Or.inr (decide_eq_true h)

theorem locLe_trans :
    ∀ a b c : String, locLe a b = true → locLe b c = true → locLe a c = true := by
  intro a b c hab hbc
  unfold locLe at hab hbc ⊢
  exact decide_eq_true (le_trans (of_decide_eq_true hab) (of_decide_eq_true hbc))

/-! ### Claim theorems -/

/-- C1: for every dataset `D` (with pairwise-distinct coins, so that
"exactly once" is meaningful) and every whitelist `W`, the filter-coins
output is the image under `simplifyCoin` of the retained coins; a coin is
retained iff it lies in `D` and has at least one network whose code is not
in `W`; each retained coin appears exactly once; and the retained coins
keep their original relative order (they form a sublist of `D`). -/
theorem filterCoins_membership_once_order (D : List Coin) (W : List String)
    (hD : D.Nodup) :
    filterCoins D W = (keptCoins D W).map simplifyCoin
    ∧ (∀ c : Coin, c ∈ keptCoins D W ↔ c ∈ D ∧ ∃ n ∈ c.networkList, n.network ∉ W)
    ∧ (keptCoins D W).Nodup
    ∧ (keptCoins D W).Sublist D := by
  refine ⟨rfl, ?_, ?_, ?_⟩
  · intro c
    rw [keptCoins, List.mem_filter, hasNonWhitelisted_iff]
  · exact hD.filter _
  · exact List.filter_sublist D

/-- Witness for C1 at a concrete one-coin dataset with an empty whitelist. -/
theorem filterCoins_membership_once_order_witness :
    ([btcCoin] : List Coin).Nodup
    ∧ (filterCoins [btcCoin] [] = (keptCoins [btcCoin] []).map simplifyCoin
       ∧ (∀ c : Coin, c ∈ keptCoins [btcCoin] [] ↔
            c ∈ [btcCoin] ∧ ∃ n ∈ c.networkList, n.network ∉ ([] : List String))
       ∧ (keptCoins [btcCoin] []).Nodup
       ∧ (keptCoins [btcCoin] []).Sublist [btcCoin]) :=
  ⟨List.nodup_singleton btcCoin,
   filterCoins_membership_once_order [btcCoin] [] (List.nodup_singleton btcCoin)⟩

/-- C8: with an empty whitelist, a coin is retained iff it belongs to the
dataset and has at least one network; in particular every coin whose
network list is empty is dropped. -/
theorem filterCoins_empty_whitelist (D : List Coin) :
    (∀ c : Coin, c ∈ keptCoins D [] ↔ c ∈ D ∧ c.networkList ≠ [])
    ∧ filterCoins D [] = (keptCoins D []).map simplifyCoin := by
  refine ⟨?_, rfl⟩
  intro c
  rw [keptCoins, List.mem_filter, hasNonWhitelisted_iff]
  constructor
  · rintro ⟨hc, n, hn, -⟩
    refine ⟨hc, ?_⟩
    intro hnil
    rw [hnil] at hn
    exact List.not_mem_nil n hn
  · rintro ⟨hc, hne⟩
    refine ⟨hc, ?_⟩
    cases hl : c.networkList with
    | nil => exact absurd hl hne
    | cons n L =>
        exact ⟨n, List.mem_cons_self n L, List.not_mem_nil n.network⟩

/-- C3: for every coin, the simplified coin's network object has as keys
exactly the codes of the coin's full network list (each key once), and each
code looks up to the name/withdrawEnable/depositEnable projection of the
last network in the list bearing that code, so a later duplicate code
overwrites an earlier one. -/
theorem simplifyCoin_networks_exact (c : Coin) :
    (∀ code : String,
      code ∈ (simplifyCoin c).networks.map Prod.fst ↔ ∃ n ∈ c.networkList, n.network = code)
    ∧ ((simplifyCoin c).networks.map Prod.fst).Nodup
    ∧ (∀ code : String,
        objLookup (simplifyCoin c).networks code =
          (c.networkList.reverse.find? (fun n => n.network == code)).map simpNet) := by
  have hnet : (simplifyCoin c).networks =
      c.networkList.foldl (fun m network => objInsert m network.network (simpNet network)) [] :=
    rfl
  refine ⟨?_, ?_, ?_⟩
  · intro code
    rw [hnet, simpFold_mem_keys]
    simp
  · rw [hnet]
    exact simpFold_nodup_keys _ _ (by simp)
  · intro code
    rw [hnet, simpFold_lookup]
    cases c.networkList.reverse.find? (fun n => n.network == code) with
    | some n => rfl
    | none => rfl

/-- C4: when the networks handler meets a name for an already-recorded
code, the recorded name is kept unless the new one is strictly longer, in
which case it is replaced; in particular equal-length competitors keep the
first-seen name.  (When the recorded name is the empty string the guard
also fires, but it then writes either the identical empty string or a
strictly longer name, so the recorded value is exactly as stated.) -/
theorem nwUpdate_prefers_longer (m : List (String × String)) (k v old : String)
    (h : objLookup m k = some old) :
    objLookup (nwUpdate m k v) k = some (if old.length < v.length then v else old)
    ∧ (old.length = v.length → objLookup (nwUpdate m k v) k = some old) := by
  have hself : objLookup (nwUpdate m k v) k =
      some (if old.length < v.length then v else old) := by
    rw [nwUpdate_objLookup_self, h]
  refine ⟨hself, ?_⟩
  intro heq
  rw [hself, if_neg (by rw [heq]; exact Nat.lt_irrefl _)]

/-- Witness for C4: the code BSC is recorded with name "BSC"; the
competing name "BNB Smart Chain (BEP20)" is strictly longer and wins. -/
theorem nwUpdate_prefers_longer_witness :
    objLookup [("BSC", "BSC")] "BSC" = some "BSC"
    ∧ (objLookup (nwUpdate [("BSC", "BSC")] "BSC" "BNB Smart Chain (BEP20)") "BSC" =
         some (if ("BSC" : String).length < ("BNB Smart Chain (BEP20)" : String).length
               then "BNB Smart Chain (BEP20)" else "BSC")
       ∧ (("BSC" : String).length = ("BNB Smart Chain (BEP20)" : String).length →
          objLookup (nwUpdate [("BSC", "BSC")] "BSC" "BNB Smart Chain (BEP20)") "BSC" =
            some "BSC")) :=
  ⟨rfl, nwUpdate_prefers_longer [("BSC", "BSC")] "BSC" "BNB Smart Chain (BEP20)" "BSC" rfl⟩

/-- C2: for every dataset and every total, transitive locale comparison,
the networks index has pairwise-distinct keys; its key set is exactly the
set of network codes occurring anywhere in the dataset; every key looks up
to a name actually borne by that code somewhere in the dataset, of maximal
length among all names seen for that code; and the entries are in
ascending order under the locale comparison. -/
theorem buildNetworkIndex_exact (loc : String → String → Bool)
    (htot : ∀ a b : String, loc a b = true ∨ loc b a = true)
    (htrans : ∀ a b c : String, loc a b = true → loc b c = true → loc a c = true)
    (D : List Coin) :
    ((buildNetworkIndex loc D).map Prod.fst).Nodup
    ∧ (∀ code : String,
        code ∈ (buildNetworkIndex loc D).map Prod.fst ↔
          ∃ c ∈ D, ∃ n ∈ c.networkList, n.network = code)
    ∧ (∀ code name : String,
        objLookup (buildNetworkIndex loc D) code = some name →
          (∃ c ∈ D, ∃ n ∈ c.networkList, n.network = code ∧ n.name = name)
          ∧ ∀ c ∈ D, ∀ n ∈ c.networkList, n.network = code → n.name.length ≤ name.length)
    ∧ List.Sorted (locRel loc) (buildNetworkIndex loc D) := by
  refine ⟨nodup_keys_buildNetworkIndex loc D, ?_, ?_, ?_⟩
  · intro code
    rw [← objLookup_isSome_iff, buildNetworkIndex_lookup_eq_raw]
    exact buildNetworkIndexRaw_isSome_iff D code
  · intro code name h
    rw [buildNetworkIndex_lookup_eq_raw] at h
    exact buildNetworkIndexRaw_lookup_some D code name h
  · have htot' : IsTotal (String × String) (locRel loc) := ⟨fun p q => htot p.fst q.fst⟩
    have htrans' : IsTrans (String × String) (locRel loc) :=
      ⟨fun p q r => htrans p.fst q.fst r.fst⟩
    exact @List.sorted_insertionSort (String × String) (locRel loc) _ htot' htrans' _

/-- Witness for C2: the lexicographic string order is total and
transitive, and the index built from the sample dataset under it is
sorted. -/
theorem buildNetworkIndex_exact_witness :
    (∀ a b : String, locLe a b = true ∨ locLe b a = true)
    ∧ (∀ a b c : String, locLe a b = true → locLe b c = true → locLe a c = true)
    ∧ List.Sorted (locRel locLe) (buildNetworkIndex locLe sampleDataset) :=
  ⟨locLe_total, locLe_trans,
   (buildNetworkIndex_exact locLe locLe_total locLe_trans sampleDataset).2.2.2⟩

/-- C5: a filter-coins request whose networks value is not an array is
answered 400 with exactly the fixed message, and no upstream fetch happens
(the fetch counter is 0), whatever the upstream would have produced. -/
theorem filterCoinsHandler_non_array (upstream : Except String ApiResponse) :
    filterCoinsHandler none upstream =
      ⟨400, RespBody.failure "Networks must be an array", 0⟩ := rfl

/-- C6: when the upstream fetch throws, both handlers answer 500 with
exactly the fixed body, independent of the error detail; the failure body
carries no data field by construction. -/
theorem handlers_upstream_error (networks : List String) (detail : String)
    (loc : String → String → Bool) :
    filterCoinsHandler (some networks) (Except.error detail) =
      ⟨500, RespBody.failure "Internal server error", 1⟩
    ∧ networksHandler loc (Except.error detail) =
      ⟨500, RespBody.failure "Internal server error", 1⟩ :=
  ⟨rfl, rfl⟩

/-- C7: every successful filter-coins response is a 200 whose total field
equals the length of its data array and whose totalCoins field equals the
size of the upstream dataset before filtering. -/
theorem filterCoinsHandler_success_counts (networks : List String) (resp : ApiResponse) :
    (filterCoinsHandler (some networks) (Except.ok resp)).status = 200
    ∧ ∃ d : List SimplifiedCoin,
        (filterCoinsHandler (some networks) (Except.ok resp)).body =
          RespBody.filterOk d.length resp.data.length d
        ∧ d = filterCoins resp.data networks :=
  ⟨rfl, filterCoins resp.data networks, rfl, rfl⟩

/-- C10: the two filter-coins implementations agree: identical
transformation output, identical status and fetch behaviour, and bodies
equal once the totalCoins field is erased. -/
theorem filterCoins_variants_agree (D : List Coin) (W : List String)
    (networksField : Option (List String)) (upstream : Except String ApiResponse) :
    filterCoinsV0 D W = filterCoins D W
    ∧ (filterCoinsHandlerV0 networksField upstream).status =
        (filterCoinsHandler networksField upstream).status
    ∧ (filterCoinsHandlerV0 networksField upstream).fetchCalls =
        (filterCoinsHandler networksField upstream).fetchCalls
    ∧ (filterCoinsHandlerV0 networksField upstream).body =
        dropTotalCoins (filterCoinsHandler networksField upstream).body := by
  refine ⟨rfl, ?_, ?_, ?_⟩ <;>
    cases networksField with
    | none => rfl
    | some ws =>
        cases upstream with
        | error e => rfl
        | ok resp => rfl

/-- C9: the transformation passes are deterministic pure functions of
their inputs: every big-step run of the filter-and-simplify loop leaves
the whitelist unchanged and produces exactly `filterCoins` (so two runs on
the same inputs agree), such a run exists for all inputs, and every run of
the index-accumulation loop produces exactly its functional fold. -/
theorem transforms_deterministic_pure :
    (∀ (W : List String) (D : List Coin) (W' : List String) (out : List SimplifiedCoin),
        FilterRun W D W' out → W' = W ∧ out = filterCoins D W)
    ∧ (∀ (W : List String) (D : List Coin), FilterRun W D W (filterCoins D W))
    ∧ (∀ (m : List (String × String)) (D : List Coin) (m' : List (String × String)),
        IndexRun m D m' →
          m' = D.foldl
            (fun a c =>
              c.networkList.foldl (fun a network => nwUpdate a network.network network.name) a)
            m)
    ∧ (∀ D : List Coin, IndexRun [] D (buildNetworkIndexRaw D)) := by
  refine ⟨?_, ?_, ?_, ?_⟩
  · intro W D W' out h
    induction h with
    | nil => exact ⟨rfl, rfl⟩
    | keep c D W' out hc hrun ih =>
        refine ⟨ih.1, ?_⟩
        rw [ih.2]
        unfold filterCoins keptCoins
        rw [List.filter_cons, if_pos hc, List.map_cons]
    | drop c D W' out hc hrun ih =>
        refine ⟨ih.1, ?_⟩
        rw [ih.2]
        unfold filterCoins keptCoins
        rw [List.filter_cons, if_neg (by simp [hc])]
  · intro W D
    induction D with
    | nil => exact FilterRun.nil W
    | cons c D ih =>
        cases hc : hasNonWhitelisted W c with
        | true =>
            have hstep : filterCoins (c :: D) W = simplifyCoin c :: filterCoins D W := by
              unfold filterCoins keptCoins
              rw [List.filter_cons, if_pos hc, List.map_cons]
            rw [hstep]
            exact FilterRun.keep W c D W _ hc ih
        | false =>
            have hstep : filterCoins (c :: D) W = filterCoins D W := by
              unfold filterCoins keptCoins
              rw [List.filter_cons, if_neg (by simp [hc])]
            rw [hstep]
            exact FilterRun.drop W c D W _ hc ih
  · intro m D m' h
    induction h with
    | nil => rfl
    | cons m c D m' hrun ih =>
        rw [List.foldl_cons]
        exact ih
  · have key : ∀ (D : List Coin) (m : List (String × String)),
        IndexRun m D
          (D.foldl
            (fun a c =>
              c.networkList.foldl (fun a network => nwUpdate a network.network network.name) a)
            m) := by
      intro D
      induction D with
      | nil => intro m; exact IndexRun.nil m
      | cons c D ih =>
          intro m
          rw [List.foldl_cons]
          exact IndexRun.cons m c D _ (ih _)
    exact fun D => key D []

/-- Witness for C9: a concrete run of each loop, fed through the theorem. -/
theorem transforms_deterministic_pure_witness :
    (([] : List String) = ([] : List String)
      ∧ [simplifyCoin btcCoin] = filterCoins [btcCoin] [])
    ∧ btcCoin.networkList.foldl
        (fun a network => nwUpdate a network.network network.name) [] =
      ([btcCoin] : List Coin).foldl
        (fun a c =>
          c.networkList.foldl (fun a network => nwUpdate a network.network network.name) a)
        [] :=
  ⟨transforms_deterministic_pure.1 [] [btcCoin] [] [simplifyCoin btcCoin]
      (FilterRun.keep [] btcCoin [] [] [] (by rfl) (FilterRun.nil [])),
   transforms_deterministic_pure.2.2.1 [] [btcCoin] _
      (IndexRun.cons [] btcCoin [] _ (IndexRun.nil _))⟩
